import Mathlib

/-!
Verification development for the `whisper` service core.

Shallow embedding of the in-memory data structures and scheduling logic:
ring buffer (`src/utils/ringBuffer.ts`), batch assembler (`src/lore/batcher.ts`),
FIFO permit gate (`src/lore/worker/nearAiClient.ts`), generation worker
(`src/lore/worker/worker.ts`), X notification acceptance
(`src/lore/worker/xNotificationWriter.ts`), marketing policy window
(`src/scheduler/marketingPolicy.ts`), and the marketing poster's validation
pipeline (`src/scheduler/marketingPoster.ts`).

JavaScript strings are modelled as Lean `String`s over their character
sequences; JS `string.length` (UTF-16 units) coincides with the character
count on the BMP-only texts handled here.  JS numbers used as indices and
counters are modelled as `Nat`.
-/

namespace Whisper

/-! ## Ring buffer (`src/utils/ringBuffer.ts`)

The TypeScript class keeps a backing array of `capacity` cells (possibly
`undefined`), a `head` index pointing at the oldest element and a `size`.
We model the backing array as a `List (Option α)` of fixed length. -/

structure RingBuffer (α : Type) where
  capacity : Nat
  buf : List (Option α)
  head : Nat
  size : Nat
  deriving Repr, DecidableEq

/-- Fresh buffer, as built by the constructor (which rejects `capacity <= 0`). -/
def RingBuffer.mk0 (α : Type) (capacity : Nat) : RingBuffer α :=
  { capacity := capacity, buf := List.replicate capacity none, head := 0, size := 0 }

/-- Source `push(item)`: if full, drop the oldest by advancing `head`, then write at
the tail slot `(head + size) % capacity`.  Returns the dropped element. -/
def RingBuffer.push {α : Type} (rb : RingBuffer α) (item : α) : RingBuffer α × Option α :=
  if rb.size = rb.capacity then
    let dropped := rb.buf.getD rb.head none
    let buf1 := rb.buf.set rb.head none
    let head1 := (rb.head + 1) % rb.capacity
    let size1 := rb.size - 1
    let tail := (head1 + size1) % rb.capacity
    ({ capacity := rb.capacity, buf := buf1.set tail (some item),
       head := head1, size := size1 + 1 }, dropped)
  else
    let tail := (rb.head + rb.size) % rb.capacity
    ({ rb with buf := rb.buf.set tail (some item), size := rb.size + 1 }, none)

/-- Source `toArray()`: items in chronological order (oldest -> newest); the loop
skips `undefined` cells. -/
def RingBuffer.toArray {α : Type} (rb : RingBuffer α) : List α :=
  (List.range rb.size).filterMap (fun i => rb.buf.getD ((rb.head + i) % rb.capacity) none)

/-- Source `drain(n)`: removes and returns up to `n` oldest elements in order,
clearing their cells and advancing `head` in one step.  (`n <= 0` returns
`[]` without touching the buffer; with `n : Nat` that is the `n = 0` case.) -/
def RingBuffer.drain {α : Type} (rb : RingBuffer α) (n : Nat) : RingBuffer α × List α :=
  if n = 0 then (rb, [])
  else
    let count := min n rb.size
    let out := (List.range count).filterMap
      (fun i => rb.buf.getD ((rb.head + i) % rb.capacity) none)
    let buf1 := (List.range count).foldl
      (fun b i => b.set ((rb.head + i) % rb.capacity) none) rb.buf
    ({ rb with buf := buf1, head := (rb.head + count) % rb.capacity, size := rb.size - count },
     out)

/-- Coupling invariant: the ring buffer represents the abstract list `l`
(oldest first).  Stated with decidable bounded quantification so concrete
instances can be checked by `decide`. -/
def RingBuffer.Inv {α : Type} [DecidableEq α] (rb : RingBuffer α) (l : List α) : Prop :=
  0 < rb.capacity ∧ rb.buf.length = rb.capacity ∧ rb.head < rb.capacity ∧
  rb.size = l.length ∧ l.length ≤ rb.capacity ∧
  ∀ i, i < l.length → rb.buf.getD ((rb.head + i) % rb.capacity) none = l.get? i

instance {α : Type} [DecidableEq α] (rb : RingBuffer α) (l : List α) :
    Decidable (RingBuffer.Inv rb l) := by
  unfold RingBuffer.Inv; infer_instance

/-- Abstract (list-level) model of `push`. -/
def ListModel.push {α : Type} (cap : Nat) (l : List α) (x : α) : List α × Option α :=
  if l.length = cap then (l.tail ++ [x], l.head?) else (l ++ [x], none)

/-- A whole sequence of pushes; returns the final buffer and the per-push
dropped elements, in push order. -/
def pushSeq {α : Type} : RingBuffer α → List α → RingBuffer α × List (Option α)
  | rb, [] => (rb, [])
  | rb, x :: xs =>
    let p := rb.push x
    let q := pushSeq p.1 xs
    (q.1, p.2 :: q.2)

def listPushSeq {α : Type} (cap : Nat) : List α → List α → List α × List (Option α)
  | l, [] => (l, [])
  | l, x :: xs =>
    let p := ListModel.push cap l x
    let q := listPushSeq cap p.1 xs
    (q.1, p.2 :: q.2)

/-- The bounded suffix: the last `cap` elements of `p`. -/
def listSuffix {α : Type} (cap : Nat) (p : List α) : List α := p.drop (p.length - cap)

/-! ## FIFO permit gate (`Semaphore` in `src/lore/worker/nearAiClient.ts`)

The class keeps `available : number` and a FIFO `queue` of waiters.
`acquire` grants immediately when `available > 0`, else enqueues; an optional
timeout removes the waiter from the queue and rejects.  `release` (held only by
a current permit holder, idempotent via a `released` flag) increments
`available` and, if a waiter is queued, hands the slot synchronously to the
queue front.  The single-threaded event-loop semantics are modelled as a step
function over atomic events; `granted`/`rejected` log the grant/timeout order.
A `release id` event fires only for a current holder (the release capability
exists only there, and the `released` flag makes second calls no-ops); a
`timeout id` event fires only while `id` is still queued (the timer is cleared
on grant), which the `contains` guards mirror. -/

inductive SemEvent where
  | acquire (id : Nat)
  | release (id : Nat)
  | timeout (id : Nat)
  deriving Repr, DecidableEq

structure SemState where
  available : Nat
  queue : List Nat
  holders : List Nat
  granted : List Nat
  rejected : List Nat
  deriving Repr, DecidableEq

def semInit (capacity : Nat) : SemState :=
  { available := capacity, queue := [], holders := [], granted := [], rejected := [] }

def semStep (s : SemState) : SemEvent → SemState
  | .acquire id =>
    if 0 < s.available then
      { s with
        available := s.available - 1
        holders := s.holders ++ [id]
        granted := s.granted ++ [id] }
    else
      { s with queue := s.queue ++ [id] }
  | .release id =>
    if s.holders.contains id then
      match s.queue with
      | [] => { s with holders := s.holders.erase id, available := s.available + 1 }
      | w :: rest =>
        -- `available += 1` immediately followed by `available -= 1` on handoff
        { s with
          holders := s.holders.erase id ++ [w]
          queue := rest
          granted := s.granted ++ [w] }
    else s
  | .timeout id =>
    if s.queue.contains id then
      -- `indexOf` + `splice(idx, 1)` removes the first occurrence
      { s with queue := s.queue.erase id, rejected := s.rejected ++ [id] }
    else s

def semRun (capacity : Nat) (events : List SemEvent) : SemState :=
  events.foldl semStep (semInit capacity)

/-- Invariant of the permit gate: slots are conserved, and a free slot implies
an empty wait queue. -/
def SemInv (capacity : Nat) (s : SemState) : Prop :=
  s.available + s.holders.length = capacity ∧ (0 < s.available → s.queue = [])

/-! ## Batch assembler (`LoreBatcher` in `src/lore/batcher.ts`)

`ingest(record)` pushes to the rounds ring (introspection only), appends to the
unbatched queue, and while the queue holds at least `batchSize` records splices
exactly `batchSize` oldest-first records into a new batch pushed onto the
bounded pending ring.  Records are modelled by their round numbers; batches by
their ordered round lists.  The `while` loop is modelled with fuel (one unit
per loop entry check; `queue.length` is ample since each iteration removes
`batchSize ≥ 1` records); the configured `batchSize` is positive (20). -/

def formBatchesFuel {α : Type} (bs : Nat) : Nat → List α → List (List α) × List α
  | 0, queue => ([], queue)
  | fuel + 1, queue =>
    if 0 < bs ∧ bs ≤ queue.length then
      let p := formBatchesFuel bs fuel (queue.drop bs)
      (queue.take bs :: p.1, p.2)
    else ([], queue)

def formBatches {α : Type} (bs : Nat) (queue : List α) : List (List α) × List α :=
  formBatchesFuel bs queue.length queue

structure BatcherSt where
  rounds : RingBuffer Nat
  pending : RingBuffer (List Nat)
  unbatched : List Nat
  deriving Repr, DecidableEq

def initBatcher (roundsCapacity _batchSize pendingCapacity : Nat) : BatcherSt :=
  { rounds := RingBuffer.mk0 Nat roundsCapacity,
    pending := RingBuffer.mk0 (List Nat) pendingCapacity,
    unbatched := [] }

def LoreBatcher.ingest (bs : Nat) (st : BatcherSt) (r : Nat) : BatcherSt :=
  let rounds1 := (st.rounds.push r).1
  let queue1 := st.unbatched ++ [r]
  let fb := formBatches bs queue1
  let pending1 := fb.1.foldl (fun p b => (p.push b).1) st.pending
  { rounds := rounds1, pending := pending1, unbatched := fb.2 }

def ingestAll (bs : Nat) (st : BatcherSt) (rs : List Nat) : BatcherSt :=
  rs.foldl (LoreBatcher.ingest bs) st

/-! ## String utilities shared by the text validators

JS strings are modelled over their character lists; the texts involved are
BMP-only, so JS `length`/`slice` (UTF-16 units) agree with character counts. -/

def isWsChar (c : Char) : Bool :=
  c = ' ' || c = '\t' || c = '\n' || c = '\r' || c = '\x0b' || c = '\x0c'

/-- JS `\w`: `[A-Za-z0-9_]`. -/
def isWordChar (c : Char) : Bool := c.isAlphanum || c = '_'

def charsStartWith : List Char → List Char → Bool
  | _, [] => true
  | [], _ :: _ => false
  | c :: cs, p :: ps => c = p && charsStartWith cs ps

def charsContains : List Char → List Char → Bool
  | [], pat => pat.isEmpty
  | c :: rest, pat => charsStartWith (c :: rest) pat || charsContains rest pat

def strContains (hay pat : String) : Bool := charsContains hay.data pat.data

def trimChars (l : List Char) : List Char :=
  ((l.dropWhile isWsChar).reverse.dropWhile isWsChar).reverse

def trimStr (s : String) : String := ⟨trimChars s.data⟩

/-- JS `toLowerCase` over the character sequence (ASCII case mapping, as
`Char.toLower`). -/
def toLowerStr (s : String) : String := ⟨s.data.map Char.toLower⟩

/-- Split on a single-character separator, keeping empty segments (the
semantics of both JS `split` and `String.splitOn` for a 1-char separator). -/
def splitOnCharAux (sep : Char) : List Char → List Char → List String
  | [], acc => [⟨acc.reverse⟩]
  | c :: rest, acc =>
    if c = sep then (⟨acc.reverse⟩ : String) :: splitOnCharAux sep rest []
    else splitOnCharAux sep rest (c :: acc)

def splitOnChar (sep : Char) (l : List Char) : List String := splitOnCharAux sep l []

/-- Global replacement of a (nonempty) pattern, left to right (fuel = length;
each step consumes at least one character). -/
def replaceCharsFuel (pat repl : List Char) : Nat → List Char → List Char
  | 0, l => l
  | _ + 1, [] => []
  | fuel + 1, c :: rest =>
    if charsStartWith (c :: rest) pat ∧ pat ≠ [] then
      repl ++ replaceCharsFuel pat repl fuel ((c :: rest).drop pat.length)
    else c :: replaceCharsFuel pat repl fuel rest

def charsEndWith (l pat : List Char) : Bool := charsStartWith l.reverse pat.reverse

/-! ## X notification acceptance (`src/lore/worker/xNotificationWriter.ts`) -/

/-- Regex `/(https?:\/\/|www\.)/i`. -/
def hasUrlLike (text : String) : Bool :=
  let t := toLowerStr text
  strContains t "http://" || strContains t "https://" || strContains t "www."

/-- Regex `/#\w+/`: a `#` immediately followed by a word character. -/
def hashtagScanChars : List Char → Bool
  | [] => false
  | c :: rest =>
    (c = '#' && (match rest with | d :: _ => isWordChar d | [] => false))
    || hashtagScanChars rest

def hasHashtag (text : String) : Bool := hashtagScanChars text.data

/-- Source `accountIds.every(id => id && t.includes(id))` (vacuously true on `[]`). -/
def containsAllAccountIds (text : String) (accountIds : List String) : Bool :=
  if accountIds.isEmpty then true
  else accountIds.all (fun id => !id.isEmpty && strContains text id)

def isValidXNotificationText (text : String) (accountIds : List String) : Bool :=
  if text.isEmpty then false
  else if 260 < text.length then false
  else if hasUrlLike text then false
  else if hasHashtag text then false
  else if !containsAllAccountIds text accountIds then false
  else true

/-! ## Marketing policy window (`src/scheduler/marketingPolicy.ts`)

`getMarketingPolicy` computes `half = floor(windowMinutes / 2)`,
`windowStart = (base - half + 1440) % 1440` and `windowEnd = (base + half) % 1440`;
`isInMarketingWindowAt` tests the current local minute against that circular
range.  `parseHHMM` guarantees `base < 1440`; for `windowMinutes ≤ 2880` the JS
signed `%` agrees with the `Nat` formula `(base + 1440 - half) % 1440` used
here.  The current local minute (obtained via `Intl` in the source) is passed
in as `nowMin`. -/

def isInCircularRange (minut start endMin : Nat) : Bool :=
  if start ≤ endMin then decide (start ≤ minut) && decide (minut ≤ endMin)
  else decide (start ≤ minut) || decide (minut ≤ endMin)

def marketingWindowStart (base windowMinutes : Nat) : Nat :=
  (base + 1440 - windowMinutes / 2) % 1440

def marketingWindowEnd (base windowMinutes : Nat) : Nat :=
  (base + windowMinutes / 2) % 1440

def isInMarketingWindow (nowMin base windowMinutes : Nat) : Bool :=
  isInCircularRange nowMin (marketingWindowStart base windowMinutes)
    (marketingWindowEnd base windowMinutes)

/-- Distance on the 1440-minute circle. -/
def circularDistance (a b : Nat) : Nat :=
  min ((a + 1440 - b) % 1440) ((b + 1440 - a) % 1440)

/-! ## Generation worker (`LoreWorker.tick` in `src/lore/worker/worker.ts`)

One batch cycle under the permit: generate the lore; if X publishing is
enabled, either skip the secondary step inside the marketing window (logging
reason `marketing_window`) or run the 4-attempt X-notification loop; then
optionally publish to NEAR Social (pushing the continuity-store entry on
success), then optionally publish to X.  Collaborator outcomes are supplied by
an environment; thrown JS exceptions are `Except.error`.  `tick` drains one
pending batch per cycle and re-invokes itself from `finally` while batches
remain. -/

structure Config where
  nearAiApiKey : Bool
  publishLoreToX : Bool
  publishLoreToNearSocial : Bool
  marketingEnabled : Bool
  deriving Repr, DecidableEq

structure CycleEnv where
  writeLore : Except String String
  xGen : Nat → Except String String
  publishNear : Except String Unit
  publishX : Except String Unit
  inWindow : Bool

/-- The worker's inner X-notification attempt loop (attempts 1..4); note the
acceptance predicate is invoked with an empty account-id list. -/
def xNotifAttempts (gen : Nat → Except String String) :
    Nat → Nat → Option String → Except String String
  | _attempt, 0, lastErr =>
    .error (lastErr.getD "x_notification_failed_to_fit_constraints")
  | attempt, fuel + 1, lastErr =>
    match gen attempt with
    | .ok t =>
      if isValidXNotificationText t [] then .ok t
      else xNotifAttempts gen (attempt + 1) fuel lastErr
    | .error e => xNotifAttempts gen (attempt + 1) fuel (some e)

structure CycleOut where
  xText : Option String
  skipReason : Option String
  storeAppended : Bool
  xPublished : Bool
  error : Option String
  deriving Repr, DecidableEq

/-- The worker's secondary-step decision inside the permit: skipped when X
publishing is disabled; skipped with log reason `marketing_window` when the
marketing scheduler is enabled and the current time is inside its window;
otherwise the 4-attempt generation loop runs (a 4-fold failure throws). -/
def secondaryStep (cfg : Config) (env : CycleEnv) : Except String (Option String × Option String) :=
  if !cfg.publishLoreToX then .ok (none, none)
  else if cfg.marketingEnabled && env.inWindow then
    -- `x_publish_skipped_marketing_window` logged with reason `marketing_window`
    .ok (none, some "marketing_window")
  else
    match xNotifAttempts env.xGen 1 4 none with
    | .ok t => .ok (some t, none)
    | .error e => .error e

def runCycle (cfg : Config) (env : CycleEnv) : CycleOut :=
  match env.writeLore with
  | .error e =>
    { xText := none, skipReason := none, storeAppended := false,
      xPublished := false, error := some e }
  | .ok _lore =>
    match secondaryStep cfg env with
    | .error e =>
      { xText := none, skipReason := none, storeAppended := false,
        xPublished := false, error := some e }
    | .ok (xo, skip) =>
      let nearRes : Except String Bool :=
        if cfg.publishLoreToNearSocial then
          match env.publishNear with
          | .ok _ => .ok true   -- `publishedLoreStore.push(...)` runs here
          | .error e => .error e
        else .ok false
      match nearRes with
      | .error e =>
        { xText := xo, skipReason := skip, storeAppended := false,
          xPublished := false, error := some e }
      | .ok appended =>
        if cfg.publishLoreToX then
          match xo with
          | some _ =>
            match env.publishX with
            | .ok _ =>
              { xText := xo, skipReason := skip, storeAppended := appended,
                xPublished := true, error := none }
            | .error e =>
              { xText := xo, skipReason := skip, storeAppended := appended,
                xPublished := false, error := some e }
          | none =>
            { xText := xo, skipReason := skip, storeAppended := appended,
              xPublished := false, error := none }
        else
          { xText := xo, skipReason := skip, storeAppended := appended,
            xPublished := false, error := none }

structure WorkerState where
  busy : Bool
  lastBatchId : Option String
  lastError : Option String
  processed : List String
  deriving Repr, DecidableEq

/-- Source `tick()`: no-op when busy, unconfigured, or nothing pending; otherwise
drain one batch, run its cycle (recording any error, clearing `busy`), and
re-invoke from `finally` while batches remain. -/
def tick (cfg : Config) (envOf : String → CycleEnv) :
    List String → WorkerState → WorkerState × List String
  | pending, st =>
    if st.busy then (st, pending)
    else if !cfg.nearAiApiKey then (st, pending)
    else
      match pending with
      | [] => (st, [])
      | b :: rest =>
        let out := runCycle cfg (envOf b)
        let st1 : WorkerState :=
          { busy := false, lastBatchId := some b, lastError := out.error,
            processed := st.processed ++ [b] }
        tick cfg envOf rest st1

/-! ## Marketing poster text pipeline (`src/scheduler/marketingPoster.ts`)

`normalizeText`: lowercase, strip `https?://\S+` and `www.\S+` runs, replace
non-(letter/digit/space) characters by spaces, collapse whitespace, trim.
Unicode classes `\p{L}\p{N}` are modelled over ASCII alphanumerics (the texts
handled are ASCII apart from the `✦` marker, which is non-alphanumeric in both
readings). -/

def dropNonWs (l : List Char) : List Char := l.dropWhile (fun c => !isWsChar c)

/-- Patterns `https?:\/\/\S+` / `www\.\S+` at the head of `l` (on lowercased text):
the pattern must be followed by at least one non-space character; returns the
remainder after the consumed match. -/
def matchPatUrl (pat : List Char) (l : List Char) : Option (List Char) :=
  if charsStartWith l pat then
    match l.drop pat.length with
    | c :: cs => if isWsChar c then none else some (dropNonWs (c :: cs))
    | [] => none
  else none

def matchUrlPrefix (l : List Char) : Option (List Char) :=
  match matchPatUrl "http://".data l with
  | some r => some r
  | none => matchPatUrl "https://".data l

/-- Left-to-right global replacement of URL runs by nothing (fuel = length;
every step consumes at least one character). -/
def removeHttpUrlsFuel : Nat → List Char → List Char
  | 0, l => l
  | _ + 1, [] => []
  | fuel + 1, c :: rest =>
    match matchUrlPrefix (c :: rest) with
    | some r => removeHttpUrlsFuel fuel r
    | none => c :: removeHttpUrlsFuel fuel rest

def removeWwwUrlsFuel : Nat → List Char → List Char
  | 0, l => l
  | _ + 1, [] => []
  | fuel + 1, c :: rest =>
    match matchPatUrl "www.".data (c :: rest) with
    | some r => removeWwwUrlsFuel fuel r
    | none => c :: removeWwwUrlsFuel fuel rest

/-- Replace each non-(letter/digit/whitespace) character by a space; runs of
them become runs of spaces, collapsed by the next pass exactly as the source's
single-space run replacement. -/
def punctToSpace (l : List Char) : List Char :=
  l.map (fun c => if c.isAlphanum || isWsChar c then c else ' ')

def collapseWsAux : Bool → List Char → List Char
  | _, [] => []
  | prevWs, c :: rest =>
    if isWsChar c then
      if prevWs then collapseWsAux true rest
      else ' ' :: collapseWsAux true rest
    else c :: collapseWsAux false rest

def normalizeText (s : String) : String :=
  let t1 := (toLowerStr s).data
  let t2 := removeHttpUrlsFuel t1.length t1
  let t3 := removeWwwUrlsFuel t2.length t2
  ⟨trimChars (collapseWsAux false (punctToSpace t3))⟩

def wordsOf (s : String) : List String :=
  (splitOnChar ' ' (normalizeText s).data).filter (fun w => !w.isEmpty)

/-- Source `firstLongWords`: the first `n` words of length ≥ 4 of the normalized
text, joined by single spaces. -/
def firstLongWords (s : String) (n : Nat) : String :=
  String.intercalate " " (((wordsOf s).filter (fun w => 4 ≤ w.length)).take n)

/-- Source `tokenSet`: insertion-ordered set of normalized words of length ≥ 4 not in
the stopword set. -/
def tokenSet (s : String) (stop : List String) : List String :=
  ((wordsOf s).filter (fun w => 4 ≤ w.length && !stop.contains w)).foldl
    (fun acc w => if acc.contains w then acc else acc ++ [w]) []

def interCount (a b : List String) : Nat := (a.filter (fun x => b.contains x)).length

/-- Test `jaccard(a,b) >= 0.62`, over the exact rational 62/100 (the source compares
IEEE doubles; no case here sits on the representation gap). -/
def jaccardAtLeast62 (a b : List String) : Bool :=
  if a.isEmpty && b.isEmpty then true
  else if a.isEmpty || b.isEmpty then false
  else
    let inter := interCount a b
    let uni := a.length + b.length - inter
    decide (31 * uni ≤ 50 * inter)

/-- First n-gram guard hit in `recentTexts`, in order: same first long word,
then same first two, then same first four. -/
def ngramReject (c1 c2 c4 : String) : List String → Option String
  | [] => none
  | r :: rest =>
    let r1 := firstLongWords r 1
    let r2 := firstLongWords r 2
    let r4 := firstLongWords r 4
    if !c1.isEmpty && !r1.isEmpty && c1 == r1 then some ("same_first_word:" ++ c1)
    else if !c2.isEmpty && !r2.isEmpty && c2 == r2 then some ("same_first_two_words:" ++ c2)
    else if !c4.isEmpty && !r4.isEmpty && c4 == r4 then some ("same_first_four_words:" ++ c4)
    else ngramReject c1 c2 c4 rest

/-- First recent text whose token-Jaccard similarity with the candidate reaches
0.62 (the source's reason embeds the similarity value; only rejection matters
here). -/
def jaccardReject (cSet : List String) (stop : List String) : List String → Option String
  | [] => none
  | r :: rest =>
    if jaccardAtLeast62 cSet (tokenSet r stop) then some "jaccard_too_high"
    else jaccardReject cSet stop rest

/-- Regex `/spitting\s+verses/i`. -/
def spitMatchAt (l : List Char) : Bool :=
  charsStartWith l "spitting".data &&
    (match l.drop 8 with
     | c :: cs => isWsChar c && charsStartWith ((c :: cs).dropWhile isWsChar) "verses".data
     | [] => false)

def spitScan : List Char → Bool
  | [] => false
  | c :: rest => spitMatchAt (c :: rest) || spitScan rest

def containsSpittingVerses (text : String) : Bool := spitScan (toLowerStr text).data

structure SimCheck where
  ok : Bool
  reason : Option String
  deriving Repr, DecidableEq

/-- Source `isTooSimilarToRecent(candidate, recentTexts, stop)` — the anti-repetition
validator (never invoked by the poster's pipeline; see `marketingAttempts`). -/
def isTooSimilarToRecent (candidate : String) (recentTexts : List String)
    (stop : List String) : SimCheck :=
  let c := trimStr candidate
  if c.isEmpty then ⟨false, some "empty"⟩
  else
    let c1 := firstLongWords c 1
    let c2 := firstLongWords c 2
    let c4 := firstLongWords c 4
    let cSet := tokenSet c stop
    match ngramReject c1 c2 c4 recentTexts with
    | some r => ⟨false, some r⟩
    | none =>
      match jaccardReject cSet stop recentTexts with
      | some r => ⟨false, some r⟩
      | none =>
        if containsSpittingVerses c then ⟨false, some "catchphrase_spitting_verses"⟩
        else ⟨true, none⟩

/-! ### Validator `validateMarketingText` and its helpers -/

/-- Source `lines()`: split on newlines (after `\r\n` → `\n`), trim each, drop empties. -/
def linesOf (text : String) : List String :=
  let nl := replaceCharsFuel "\r\n".data "\n".data text.data.length text.data
  ((splitOnChar '\n' nl).map trimStr).filter (fun l => !l.isEmpty)

def allLinesStartWithSeparator (text : String) : Bool :=
  let ls := linesOf text
  !ls.isEmpty && ls.all (fun l => charsStartWith l.data "✦ ".data)

/-- Maximal matches of `/#[A-Za-z0-9_]+/g`, left to right. -/
def hashtagMatches : List Char → List String
  | [] => []
  | c :: rest =>
    if c = '#' then
      let run := rest.takeWhile isWordChar
      if run.isEmpty then hashtagMatches rest
      else (⟨'#' :: run⟩ : String) :: hashtagMatches rest
    else hashtagMatches rest

def hasOnlyNearcon26Hashtag (text : String) : Bool :=
  match hashtagMatches text.data with
  | [] => true
  | [t] => t == "#NEARCON26"
  | _ => false

/-- Regex `/#NEARCON26\b/`: a maximal hashtag run equal to `#NEARCON26` (a longer
run fails the `\b` exactly as it fails maximality). -/
def mentionsNearconTag (text : String) : Bool :=
  (hashtagMatches text.data).contains "#NEARCON26"

def endsWithNearconTag (text : String) : Bool := charsEndWith text.data "#NEARCON26".data

/-- Character class `[a-z0-9_-]` of the contract-identifier regexes (applied
to lowercased text). -/
def isClassChar (c : Char) : Bool := c.isLower || c.isDigit || c = '_' || c = '-'

/-- Given the characters before a position (nearest first), decide whether some
run of `[a-z0-9_-]+` can start at a `\b` boundary and reach this position. -/
def validRunStart : List Char → Bool
  | [] => false
  | c :: rest =>
    if !isClassChar c then false
    else if isWordChar c then
      (match rest with
       | [] => true
       | d :: _ => !isWordChar d) || validRunStart rest
    else
      (match rest with
       | [] => false
       | d :: _ => isWordChar d) || validRunStart rest

def boundaryAfterOk : List Char → Bool
  | [] => true
  | d :: _ => !isWordChar d

/-- Regex `/\b[a-z0-9_-]+\.(near|testnet)\b/i` (scanning with the reversed prefix). -/
def contractDotScan : List Char → List Char → Bool
  | _, [] => false
  | rev, c :: rest =>
    (c = '.' &&
      ((charsStartWith rest "near".data && boundaryAfterOk (rest.drop 4)) ||
       (charsStartWith rest "testnet".data && boundaryAfterOk (rest.drop 7))) &&
      validRunStart rev)
    || contractDotScan (c :: rev) rest

/-- Regex `/\bblackjack-v\d+\b/i`. -/
def blackjackScan : List Char → List Char → Bool
  | _, [] => false
  | rev, c :: rest =>
    (charsStartWith (c :: rest) "blackjack-v".data &&
      (match rev with | [] => true | d :: _ => !isWordChar d) &&
      (let after := (c :: rest).drop 11
       let digits := after.takeWhile Char.isDigit
       !digits.isEmpty && boundaryAfterOk (after.drop digits.length)))
    || blackjackScan (c :: rev) rest

/-- After `ft.`, a `[a-z0-9_-]+` run with a `\b` after some nonempty prefix. -/
def classRunEndOk : List Char → Bool
  | [] => false
  | c :: rest =>
    if !isClassChar c then false
    else
      (match rest with
       | [] => isWordChar c
       | d :: _ => isWordChar c != isWordChar d) || classRunEndOk rest

/-- Regex `/\bft\.[a-z0-9_-]+\b/i`. -/
def ftScan : List Char → List Char → Bool
  | _, [] => false
  | rev, c :: rest =>
    (charsStartWith (c :: rest) "ft.".data &&
      (match rev with | [] => true | d :: _ => !isWordChar d) &&
      classRunEndOk ((c :: rest).drop 3))
    || ftScan (c :: rev) rest

def containsContractLikeIdentifier (text : String) : Bool :=
  let t := (toLowerStr text).data
  contractDotScan [] t || blackjackScan [] t || ftScan [] t

/-- Regex `/check\s+(this|the)\s+profile/i`-style sequence at the head of `l`. -/
def matchSeqAt (l w1 : List Char) (alts : List (List Char)) (w3 : List Char) : Bool :=
  charsStartWith l w1 &&
    (match l.drop w1.length with
     | c :: cs =>
       isWsChar c &&
       (let r2 := (c :: cs).dropWhile isWsChar
        alts.any (fun a =>
          charsStartWith r2 a &&
          (match r2.drop a.length with
           | d :: ds => isWsChar d && charsStartWith ((d :: ds).dropWhile isWsChar) w3
           | [] => false)))
     | [] => false)

def seqScan (w1 : List Char) (alts : List (List Char)) (w3 : List Char) :
    List Char → Bool
  | [] => false
  | c :: rest => matchSeqAt (c :: rest) w1 alts w3 || seqScan w1 alts w3 rest

def hasExplicitCheckProfile (text : String) : Bool :=
  seqScan "check".data ["this".data, "the".data] "profile".data (toLowerStr text).data

def hasExplicitVisitProfile (text : String) : Bool :=
  seqScan "visit".data ["this".data, "our".data] "profile".data (toLowerStr text).data

def anchorWords : List String :=
  ["forest", "oracle", "chronicle", "lore", "canopy", "embers", "moss"]

def containsAdjacentDarkForest : List String → Bool
  | a :: b :: rest => (a == "dark" && b == "forest") || containsAdjacentDarkForest (b :: rest)
  | _ => false

/-- Regex `/\b(dark\s+forest|forest|oracle|chronicle|lore|canopy|embers|moss)\b/i`
over the normalized text: whole-word membership (the `dark forest` alternative
is subsumed by `forest` but kept for fidelity). -/
def hasDarkForestVibeAnchor (text : String) : Bool :=
  let ws := wordsOf text
  containsAdjacentDarkForest ws || ws.any (fun w => anchorWords.contains w)

def validateMarketingText (text : String) : SimCheck :=
  let t := trimStr text
  if t.isEmpty then ⟨false, some "empty"⟩
  else if hasUrlLike t then ⟨false, some "contains_url"⟩
  else if containsContractLikeIdentifier t then ⟨false, some "contains_contract_identifier"⟩
  else
    let ls := linesOf t
    if ls.length < 1 || 2 < ls.length then ⟨false, some ("line_count_" ++ toString ls.length)⟩
    else if !allLinesStartWithSeparator t then ⟨false, some "bad_separator_lines"⟩
    else if !hasOnlyNearcon26Hashtag t then ⟨false, some "invalid_hashtag"⟩
    else if mentionsNearconTag t && !endsWithNearconTag t then ⟨false, some "hashtag_not_at_end"⟩
    else if hasExplicitCheckProfile t then ⟨false, some "explicit_check_profile"⟩
    else if hasExplicitVisitProfile t then ⟨false, some "explicit_visit_profile"⟩
    else if !hasDarkForestVibeAnchor t then ⟨false, some "missing_dark_forest_anchor"⟩
    else ⟨true, none⟩

/-- Source `generateMarketingTextWithRetries`: up to `maxAttempts = 2` candidates
(already normalized; `cand` is the generator per attempt), each screened by
`validateMarketingText` ONLY; after exhausting attempts the last draft is
returned anyway (flag `false`).  `isTooSimilarToRecent` is absent from this
loop. -/
def marketingAttempts (cand : Nat → String) : Nat → Nat → String → String × Bool
  | _attempt, 0, last => (last, false)
  | attempt, fuel + 1, _last =>
    let t := cand attempt
    if (validateMarketingText t).ok then (t, true)
    else marketingAttempts cand (attempt + 1) fuel t

def generateMarketingTextWithRetries (cand : Nat → String) : String × Bool :=
  marketingAttempts cand 1 2 ""

/-- Source `enforceHardCap`: trim, then slice to at most 25000 UTF-16 units. -/
def enforceHardCap (text : String) : String :=
  let t := trimStr text
  if t.length ≤ 25000 then t else ⟨t.data.take 25000⟩

/-- The text handed to `postTweet` by `generateAndPost` (`none` when the
empty-text guard throws instead of posting). -/
def generateAndPostText (draft : String) : Option String :=
  let text := enforceHardCap draft
  if (trimStr text).isEmpty then none else some text

/-! ### Helper lemmas -/

theorem getD_set_self {α : Type} (l : List (Option α)) (i : Nat) (x : Option α)
    (h : i < l.length) : (l.set i x).getD i none = x := by
  rw [List.getD_eq_getElem?_getD, List.getElem?_set_self h]
  rfl

theorem getD_set_ne {α : Type} (l : List (Option α)) {i j : Nat} (x : Option α)
    (h : i ≠ j) : (l.set i x).getD j none = l.getD j none := by
  rw [List.getD_eq_getElem?_getD, List.getD_eq_getElem?_getD, List.getElem?_set_ne h]

theorem add_mod_ne_self {c h k : Nat} (hh : h < c) (hk0 : 0 < k) (hkc : k < c) :
    (h + k) % c ≠ h := by
  rcases Nat.lt_or_ge (h + k) c with hlt | hge
  · rw [Nat.mod_eq_of_lt hlt]; omega
  · have h2 : (h + k) % c = h + k - c := by
      rw [Nat.mod_eq_sub_mod hge, Nat.mod_eq_of_lt (by omega)]
    omega

theorem add_mod_inj {c h i j : Nat} (hi : i < c) (hj : j < c)
    (heq : (h + i) % c = (h + j) % c) : i = j := by
  have hmod : i % c = j % c := Nat.ModEq.add_left_cancel' h heq
  rwa [Nat.mod_eq_of_lt hi, Nat.mod_eq_of_lt hj] at hmod

theorem get?_tail {α : Type} (l : List α) (i : Nat) : l.tail.get? i = l.get? (i + 1) := by
  cases l <;> simp [List.get?_eq_getElem?]

/-- A `filterMap` over `range n` whose entries are all `some` recovers the list. -/
theorem filterMap_range_eq_of_some {α : Type} :
    ∀ (n : Nat) (f : Nat → Option α) (g : List α), g.length = n →
      (∀ i, i < n → f i = g.get? i) → (List.range n).filterMap f = g := by
  intro n
  induction n with
  | zero =>
    intro f g hlen _
    have hg : g = [] := List.eq_nil_of_length_eq_zero hlen
    subst hg
    rfl
  | succ m ih =>
    intro f g hlen hsome
    cases g with
    | nil => simp at hlen
    | cons a g0 =>
      have h0 : f 0 = some a := by simpa using hsome 0 (Nat.succ_pos m)
      have hrec : List.filterMap (f ∘ Nat.succ) (List.range m) = g0 := by
        apply ih _ g0 (by simpa using hlen)
        intro i hi
        have := hsome (i + 1) (by omega)
        simpa [List.get?_eq_getElem?] using this
      rw [List.range_succ_eq_map, List.filterMap_cons, h0, List.filterMap_map]
      show a :: List.filterMap (f ∘ Nat.succ) (List.range m) = a :: g0
      rw [hrec]

theorem length_foldl_set {α : Type} (idxs : List Nat) (buf : List (Option α)) :
    (idxs.foldl (fun b i => b.set i none) buf).length = buf.length := by
  induction idxs generalizing buf with
  | nil => rfl
  | cons i rest ih => simp [List.foldl_cons, ih, List.length_set]

theorem getD_foldl_set_none {α : Type} (idxs : List Nat) (buf : List (Option α)) (j : Nat)
    (h : ∀ i ∈ idxs, i ≠ j) :
    (idxs.foldl (fun b i => b.set i none) buf).getD j none = buf.getD j none := by
  induction idxs generalizing buf with
  | nil => rfl
  | cons i rest ih =>
    rw [List.foldl_cons, ih _ (fun x hx => h x (List.mem_cons_of_mem _ hx))]
    exact getD_set_ne buf none (h i (List.mem_cons_self i rest))

/-! ### Refinement: ring buffer operations track the list model -/

theorem push_refines {α : Type} [DecidableEq α] (rb : RingBuffer α) (l : List α) (x : α)
    (hInv : rb.Inv l) :
    (rb.push x).1.Inv (ListModel.push rb.capacity l x).1 ∧
    (rb.push x).2 = (ListModel.push rb.capacity l x).2 := by
  obtain ⟨hcap, hbuf, hhead, hsize, hlen, hcontent⟩ := hInv
  by_cases hfull : rb.size = rb.capacity
  · -- full: evict oldest, write at the (old) head slot
    have hlcap : l.length = rb.capacity := by omega
    have hlpos : 0 < l.length := by omega
    have hp : rb.push x =
        ({ capacity := rb.capacity,
           buf := (rb.buf.set rb.head none).set
             (((rb.head + 1) % rb.capacity + (rb.size - 1)) % rb.capacity) (some x),
           head := (rb.head + 1) % rb.capacity, size := rb.size - 1 + 1 },
         rb.buf.getD rb.head none) := by
      simp only [RingBuffer.push, if_pos hfull]
    have hm : ListModel.push rb.capacity l x = (l.tail ++ [x], l.head?) := by
      simp only [ListModel.push, if_pos hlcap]
    -- the tail slot written is exactly the old head
    have htail : ((rb.head + 1) % rb.capacity + (rb.size - 1)) % rb.capacity = rb.head := by
      rw [Nat.mod_add_mod]
      have : rb.head + 1 + (rb.size - 1) = rb.head + rb.capacity := by omega
      rw [this, Nat.add_mod_right, Nat.mod_eq_of_lt hhead]
    have hdropped : rb.buf.getD rb.head none = l.head? := by
      have h0 := hcontent 0 hlpos
      rw [Nat.add_zero, Nat.mod_eq_of_lt hhead] at h0
      rw [h0]
      cases l <;> simp
    rw [hp, hm]
    constructor
    · rw [htail, List.set_set]
      refine ⟨hcap, ?_, Nat.mod_lt _ hcap, ?_, ?_, ?_⟩
      · simp [List.length_set, hbuf]
      · simp only [List.length_append, List.length_tail, List.length_cons,
          List.length_nil]
        omega
      · simp only [List.length_append, List.length_tail, List.length_cons,
          List.length_nil]
        omega
      · intro i hi
        simp only [List.length_append, List.length_tail, List.length_cons,
          List.length_nil] at hi
        by_cases hlast : i = l.length - 1
        · subst hlast
          have hidx : ((rb.head + 1) % rb.capacity + (l.length - 1)) % rb.capacity = rb.head := by
            rw [Nat.mod_add_mod]
            have : rb.head + 1 + (l.length - 1) = rb.head + rb.capacity := by omega
            rw [this, Nat.add_mod_right, Nat.mod_eq_of_lt hhead]
          rw [hidx, getD_set_self _ _ _ (by rw [hbuf]; exact hhead)]
          have hidx2 : (l.tail ++ [x]).get? (l.length - 1) = some x := by
            rw [List.get?_eq_getElem?,
              List.getElem?_append_right (by simp [List.length_tail])]
            simp [List.length_tail]
          exact hidx2.symm
        · -- inner positions shift by one
          have hi' : i < l.length - 1 := by omega
          have hidx : ((rb.head + 1) % rb.capacity + i) % rb.capacity
              = (rb.head + (i + 1)) % rb.capacity := by
            rw [Nat.mod_add_mod]
            congr 1
            omega
          rw [hidx, getD_set_ne _ _ ?hne]
          case hne =>
            intro hcontra
            exact add_mod_ne_self hhead (k := i + 1) (by omega) (by omega) hcontra.symm
          rw [hcontent (i + 1) (by omega)]
          have hstep : (l.tail ++ [x]).get? i = l.tail.get? i := by
            rw [List.get?_eq_getElem?, List.get?_eq_getElem?,
              List.getElem?_append_left (by simp only [List.length_tail]; omega)]
          rw [hstep, get?_tail]
    · exact hdropped
  · -- not full: write at the tail slot
    have hltcap : l.length < rb.capacity := by omega
    have hp : rb.push x =
        ({ capacity := rb.capacity,
           buf := rb.buf.set ((rb.head + rb.size) % rb.capacity) (some x),
           head := rb.head, size := rb.size + 1 }, none) := by
      simp only [RingBuffer.push, if_neg hfull]
    have hm : ListModel.push rb.capacity l x = (l ++ [x], none) := by
      simp only [ListModel.push, if_neg (by omega : ¬ l.length = rb.capacity)]
    rw [hp, hm]
    refine ⟨⟨hcap, ?_, hhead, ?_, ?_, ?_⟩, rfl⟩
    · simp [List.length_set, hbuf]
    · simp only [List.length_append, List.length_cons, List.length_nil]
      omega
    · simp only [List.length_append, List.length_cons, List.length_nil]
      omega
    · intro i hi
      simp only [List.length_append, List.length_cons, List.length_nil] at hi
      by_cases hlast : i = l.length
      · subst hlast
        rw [hsize, getD_set_self _ _ _ (by rw [hbuf]; exact Nat.mod_lt _ hcap)]
        have hidx2 : (l ++ [x]).get? l.length = some x := by
          rw [List.get?_eq_getElem?, List.getElem?_append_right (by omega)]
          simp
        exact hidx2.symm
      · have hi' : i < l.length := by omega
        rw [hsize, getD_set_ne _ _ ?hne2]
        case hne2 =>
          intro hcontra
          have := add_mod_inj (h := rb.head) (by omega : l.length < rb.capacity)
            (by omega : i < rb.capacity) hcontra
          omega
        rw [hcontent i hi']
        rw [List.get?_eq_getElem?, List.get?_eq_getElem?, List.getElem?_append_left hi']

theorem toArray_eq {α : Type} [DecidableEq α] (rb : RingBuffer α) (l : List α)
    (hInv : rb.Inv l) : rb.toArray = l := by
  obtain ⟨hcap, hbuf, hhead, hsize, hlen, hcontent⟩ := hInv
  unfold RingBuffer.toArray
  rw [hsize]
  exact filterMap_range_eq_of_some l.length _ l rfl (fun i hi => hcontent i hi)

theorem drain_refines {α : Type} [DecidableEq α] (rb : RingBuffer α) (l : List α) (n : Nat)
    (hInv : rb.Inv l) :
    (rb.drain n).2 = l.take (min n l.length) ∧
    (rb.drain n).1.Inv (l.drop (min n l.length)) := by
  obtain ⟨hcap, hbuf, hhead, hsize, hlen, hcontent⟩ := hInv
  by_cases hn : n = 0
  · subst hn
    simp only [RingBuffer.drain, if_pos rfl, Nat.zero_min, List.take_zero, List.drop_zero]
    exact ⟨rfl, ⟨hcap, hbuf, hhead, hsize, hlen, hcontent⟩⟩
  · have hcount : min n rb.size = min n l.length := by rw [hsize]
    set count := min n l.length with hc
    have hcle : count ≤ l.length := Nat.min_le_right _ _
    have hd : rb.drain n =
        ({ capacity := rb.capacity,
           buf := (List.range (min n rb.size)).foldl
             (fun b i => b.set ((rb.head + i) % rb.capacity) none) rb.buf,
           head := (rb.head + min n rb.size) % rb.capacity,
           size := rb.size - min n rb.size },
         (List.range (min n rb.size)).filterMap
           (fun i => rb.buf.getD ((rb.head + i) % rb.capacity) none)) := by
      simp only [RingBuffer.drain, if_neg hn]
    constructor
    · rw [hd]
      simp only [hcount, ← hc]
      apply filterMap_range_eq_of_some count _ (l.take count)
        (by rw [List.length_take]; omega)
      intro i hi
      rw [hcontent i (by omega)]
      rw [List.get?_eq_getElem?, List.get?_eq_getElem?, List.getElem?_take_of_lt hi]
    · rw [hd]
      unfold RingBuffer.Inv
      dsimp only
      rw [hcount]
      have hfold : (List.range count).foldl
          (fun b i => b.set ((rb.head + i) % rb.capacity) none) rb.buf
          = ((List.range count).map (fun i => (rb.head + i) % rb.capacity)).foldl
              (fun b j => b.set j none) rb.buf := by
        rw [List.foldl_map]
      refine ⟨hcap, ?_, Nat.mod_lt _ hcap, ?_, ?_, ?_⟩
      · rw [hfold, length_foldl_set, hbuf]
      · rw [List.length_drop]; omega
      · rw [List.length_drop]; omega
      · intro i hi
        rw [List.length_drop] at hi
        have hidx : ((rb.head + count) % rb.capacity + i) % rb.capacity
            = (rb.head + (count + i)) % rb.capacity := by
          rw [Nat.mod_add_mod]
          congr 1
          omega
        rw [hidx, hfold]
        rw [getD_foldl_set_none _ _ _ ?hcl]
        case hcl =>
          intro j hj
          obtain ⟨j0, hj0, rfl⟩ := List.mem_map.mp hj
          rw [List.mem_range] at hj0
          intro hcontra
          have := add_mod_inj (h := rb.head) (by omega : j0 < rb.capacity)
            (by omega : count + i < rb.capacity) hcontra
          omega
        rw [hcontent (count + i) (by omega)]
        rw [List.get?_eq_getElem?, List.get?_eq_getElem?, List.getElem?_drop]

/-! ### Sequences of pushes -/

theorem pushSeq_refines {α : Type} [DecidableEq α] (xs : List α) :
    ∀ (rb : RingBuffer α) (l : List α), rb.Inv l →
      (pushSeq rb xs).1.Inv (listPushSeq rb.capacity l xs).1 ∧
      (pushSeq rb xs).2 = (listPushSeq rb.capacity l xs).2 := by
  induction xs with
  | nil => intro rb l h; exact ⟨h, rfl⟩
  | cons x xs ih =>
    intro rb l h
    have hstep := push_refines rb l x h
    have hcap : (rb.push x).1.capacity = rb.capacity := by
      unfold RingBuffer.push
      split <;> rfl
    have hrec := ih (rb.push x).1 (ListModel.push rb.capacity l x).1 hstep.1
    rw [hcap] at hrec
    exact ⟨hrec.1, by simp only [pushSeq, listPushSeq, hstep.2, hrec.2]⟩

theorem listSuffix_of_le {α : Type} {cap : Nat} {p : List α} (h : p.length ≤ cap) :
    listSuffix cap p = p := by
  unfold listSuffix
  rw [Nat.sub_eq_zero_of_le h, List.drop_zero]

/-- Drops produced by the list-level push sequence, starting after prefix `pref`:
the i-th push evicts nothing while fewer than `cap` items have ever been pushed,
and otherwise evicts exactly the (global index − cap)-th pushed item. -/
theorem listPushSeq_from_suffix {α : Type} (cap : Nat) (hcap : 0 < cap) :
    ∀ (xs pref : List α),
      (listPushSeq cap (listSuffix cap pref) xs).1 = listSuffix cap (pref ++ xs) ∧
      (listPushSeq cap (listSuffix cap pref) xs).2
        = (List.range xs.length).map
            (fun i => if pref.length + i < cap then none
                      else (pref ++ xs).get? (pref.length + i - cap)) := by
  intro xs
  induction xs with
  | nil =>
    intro pref
    simp [listPushSeq]
  | cons x xs ih =>
    intro pref
    have happ : (pref ++ [x]) ++ xs = pref ++ x :: xs := by
      rw [List.append_assoc]; rfl
    have hlen1 : (pref ++ [x]).length = pref.length + 1 := by simp
    have hmaps : ∀ (hpush1 : (ListModel.push cap (listSuffix cap pref) x).1
          = listSuffix cap (pref ++ [x])),
        (listPushSeq cap (listSuffix cap pref) (x :: xs)).1 = listSuffix cap (pref ++ x :: xs) := by
      intro hpush1
      show (listPushSeq cap (ListModel.push cap (listSuffix cap pref) x).1 xs).1 = _
      rw [hpush1, (ih (pref ++ [x])).1, happ]
    have htails : ∀ (hpush1 : (ListModel.push cap (listSuffix cap pref) x).1
          = listSuffix cap (pref ++ [x])),
        (listPushSeq cap (ListModel.push cap (listSuffix cap pref) x).1 xs).2
          = (List.range xs.length).map
              (fun i => if pref.length + 1 + i < cap then none
                        else (pref ++ x :: xs).get? (pref.length + 1 + i - cap)) := by
      intro hpush1
      rw [hpush1, (ih (pref ++ [x])).2]
      apply List.map_congr_left
      intro i _
      dsimp only
      rw [happ, hlen1]
    have htaileq : (List.range xs.length).map
          (fun i => if pref.length + 1 + i < cap then none
                    else (pref ++ x :: xs).get? (pref.length + 1 + i - cap))
        = (List.range xs.length).map
            ((fun i => if pref.length + i < cap then none
                       else (pref ++ x :: xs).get? (pref.length + i - cap)) ∘ Nat.succ) := by
      apply List.map_congr_left
      intro i _
      simp only [Function.comp_apply, Nat.succ_eq_add_one]
      have heq : pref.length + (i + 1) = pref.length + 1 + i := by omega
      rw [heq]
    by_cases hfull : cap ≤ pref.length
    · -- buffer full: push evicts the oldest element of the suffix
      have hlsuf : (listSuffix cap pref).length = cap := by
        unfold listSuffix
        rw [List.length_drop]
        omega
      have hpush1 : (ListModel.push cap (listSuffix cap pref) x).1
          = listSuffix cap (pref ++ [x]) := by
        unfold ListModel.push
        rw [if_pos hlsuf]
        unfold listSuffix
        show (pref.drop (pref.length - cap)).tail ++ [x] = _
        rw [List.tail_drop, hlen1, List.drop_append_of_le_length (by omega)]
        have hix : pref.length - cap + 1 = pref.length + 1 - cap := by omega
        rw [hix]
      have hpush2 : (ListModel.push cap (listSuffix cap pref) x).2
          = pref.get? (pref.length - cap) := by
        unfold ListModel.push
        rw [if_pos hlsuf]
        unfold listSuffix
        show (pref.drop (pref.length - cap)).head? = _
        rw [List.head?_drop, List.get?_eq_getElem?]
      refine ⟨hmaps hpush1, ?_⟩
      show (ListModel.push cap (listSuffix cap pref) x).2
          :: (listPushSeq cap (ListModel.push cap (listSuffix cap pref) x).1 xs).2 = _
      rw [hpush2, htails hpush1, htaileq, List.length_cons, List.range_succ_eq_map,
        List.map_cons, List.map_map]
      rw [if_neg (by omega : ¬ pref.length + 0 < cap)]
      have hhead : (pref ++ x :: xs).get? (pref.length + 0 - cap)
          = pref.get? (pref.length - cap) := by
        rw [Nat.add_zero, List.get?_eq_getElem?, List.get?_eq_getElem?]
        exact List.getElem?_append_left (by omega)
      rw [hhead]
    · -- buffer not yet full: push appends
      have hlt : pref.length < cap := by omega
      have hsuf : listSuffix cap pref = pref := listSuffix_of_le (by omega)
      have hsuf1 : listSuffix cap (pref ++ [x]) = pref ++ [x] :=
        listSuffix_of_le (by rw [hlen1]; omega)
      have hpush1 : (ListModel.push cap (listSuffix cap pref) x).1
          = listSuffix cap (pref ++ [x]) := by
        unfold ListModel.push
        rw [hsuf, hsuf1, if_neg (by omega)]
      have hpush2 : (ListModel.push cap (listSuffix cap pref) x).2 = none := by
        unfold ListModel.push
        rw [hsuf, if_neg (by omega)]
      refine ⟨hmaps hpush1, ?_⟩
      show (ListModel.push cap (listSuffix cap pref) x).2
          :: (listPushSeq cap (ListModel.push cap (listSuffix cap pref) x).1 xs).2 = _
      rw [hpush2, htails hpush1, htaileq, List.length_cons, List.range_succ_eq_map,
        List.map_cons, List.map_map]
      rw [if_pos (by omega : pref.length + 0 < cap)]

theorem Inv_mk0 (α : Type) [DecidableEq α] (C : Nat) (hC : 0 < C) :
    (RingBuffer.mk0 α C).Inv [] := by
  refine ⟨hC, by simp [RingBuffer.mk0], ?_, rfl, by simp, ?_⟩
  · show 0 < C
    exact hC
  · intro i hi
    simp at hi

theorem push_capacity {α : Type} (rb : RingBuffer α) (x : α) :
    (rb.push x).1.capacity = rb.capacity := by
  unfold RingBuffer.push
  split <;> rfl

theorem pushSeq_capacity {α : Type} (xs : List α) :
    ∀ rb : RingBuffer α, (pushSeq rb xs).1.capacity = rb.capacity := by
  induction xs with
  | nil => intro rb; rfl
  | cons x xs ih =>
    intro rb
    show (pushSeq (rb.push x).1 xs).1.capacity = _
    rw [ih (rb.push x).1, push_capacity]

/-! ## Claim C7 -/

/-- C7: for every `RingBuffer` constructed with capacity `C > 0` and every
sequence of `push()` calls, the length never exceeds `C`; the i-th push
(0-indexed) drops nothing while `i < C` and otherwise evicts and reports
exactly the `(i − C)`-th pushed item, i.e. the oldest element. -/
theorem C7_ring_push_eviction (C : Nat) (hC : 0 < C) (xs : List Nat) :
    (pushSeq (RingBuffer.mk0 Nat C) xs).1.size ≤ C ∧
    (pushSeq (RingBuffer.mk0 Nat C) xs).2.length = xs.length ∧
    (∀ i, i < xs.length →
      (pushSeq (RingBuffer.mk0 Nat C) xs).2.get? i
        = some (if i < C then none else xs.get? (i - C))) := by
  have hInv0 : (RingBuffer.mk0 Nat C).Inv [] := Inv_mk0 Nat C hC
  have href := pushSeq_refines xs (RingBuffer.mk0 Nat C) [] hInv0
  have hcap : (RingBuffer.mk0 Nat C).capacity = C := rfl
  rw [hcap] at href
  obtain ⟨href1, href2⟩ := href
  have hls := listPushSeq_from_suffix C hC xs ([] : List Nat)
  have hsufnil : listSuffix C ([] : List Nat) = [] := by simp [listSuffix]
  rw [hsufnil] at hls
  refine ⟨?_, ?_, ?_⟩
  · obtain ⟨_, _, _, hsz, hlenle, _⟩ := href1
    calc (pushSeq (RingBuffer.mk0 Nat C) xs).1.size
        = (listPushSeq C [] xs).1.length := hsz
      _ ≤ (pushSeq (RingBuffer.mk0 Nat C) xs).1.capacity := hlenle
      _ = C := by rw [pushSeq_capacity]; rfl
  · rw [href2, hls.2, List.length_map, List.length_range]
  · intro i hi
    rw [href2, hls.2]
    rw [List.get?_eq_getElem?, List.getElem?_map, List.getElem?_range hi]
    simp only [Option.map_some', List.nil_append, List.length_nil, Nat.zero_add]

/-- Witness for C7 at `C = 2`, pushes `[10, 20, 30]`. -/
theorem C7_ring_push_eviction_witness :
    (pushSeq (RingBuffer.mk0 Nat 2) [10, 20, 30]).1.size ≤ 2 ∧
    (pushSeq (RingBuffer.mk0 Nat 2) [10, 20, 30]).2.length = ([10, 20, 30] : List Nat).length ∧
    (∀ i, i < ([10, 20, 30] : List Nat).length →
      (pushSeq (RingBuffer.mk0 Nat 2) [10, 20, 30]).2.get? i
        = some (if i < 2 then none else ([10, 20, 30] : List Nat).get? (i - 2))) :=
  C7_ring_push_eviction 2 (by decide) [10, 20, 30]

/-! ## Claim C8 -/

/-- C8: on a buffer holding `e1..ek` (oldest first), `drain(n)` removes and
returns the first `min n k` elements in order, and an immediately following
`toArray()` returns exactly the remaining elements in their original order. -/
theorem C8_drain_then_toArray (rb : RingBuffer Nat) (l : List Nat) (n : Nat)
    (hInv : rb.Inv l) :
    (rb.drain n).2 = l.take (min n l.length) ∧
    (rb.drain n).1.toArray = l.drop (min n l.length) :=
  ⟨(drain_refines rb l n hInv).1, toArray_eq _ _ (drain_refines rb l n hInv).2⟩

/-- Witness for C8 on a concrete 3-element buffer, draining 2. -/
theorem C8_drain_then_toArray_witness :
    (RingBuffer.drain ⟨3, [some 1, some 2, some 3], 0, 3⟩ 2).2
      = ([1, 2, 3] : List Nat).take (min 2 ([1, 2, 3] : List Nat).length) ∧
    (RingBuffer.drain ⟨3, [some 1, some 2, some 3], 0, 3⟩ 2).1.toArray
      = ([1, 2, 3] : List Nat).drop (min 2 ([1, 2, 3] : List Nat).length) :=
  C8_drain_then_toArray ⟨3, [some 1, some 2, some 3], 0, 3⟩ [1, 2, 3] 2 (by decide)

/-! ## Claim C9 -/

/-! ## Permit gate lemmas -/

theorem semStep_inv (cap : Nat) (s : SemState) (e : SemEvent) (h : SemInv cap s) :
    SemInv cap (semStep s e) := by
  obtain ⟨hsum, hfree⟩ := h
  cases e with
  | acquire id =>
    by_cases ha : 0 < s.available
    · simp only [semStep, if_pos ha]
      constructor
      · dsimp only
        simp only [List.length_append, List.length_cons, List.length_nil]
        omega
      · dsimp only
        intro h0
        exact hfree (by omega)
    · simp only [semStep, if_neg ha]
      exact ⟨hsum, fun h0 => absurd h0 ha⟩
  | release id =>
    by_cases hc : s.holders.contains id
    · have hmem : id ∈ s.holders := by simpa using hc
      have hpos : 0 < s.holders.length :=
        List.length_pos.mpr (List.ne_nil_of_mem hmem)
      cases hqe : s.queue with
      | nil =>
        simp only [semStep, hc, if_true, hqe]
        constructor
        · dsimp only
          rw [List.length_erase_of_mem hmem]
          omega
        · dsimp only
          intro _
          rfl
      | cons w rest =>
        simp only [semStep, hc, if_true, hqe]
        constructor
        · dsimp only
          simp only [List.length_append, List.length_cons, List.length_nil]
          rw [List.length_erase_of_mem hmem]
          omega
        · dsimp only
          intro h0
          have hnil := hfree h0
          rw [hqe] at hnil
          exact absurd hnil (by simp)
    · simp only [semStep, hc, if_false]
      exact ⟨hsum, hfree⟩
  | timeout id =>
    by_cases hc : s.queue.contains id
    · simp only [semStep, hc, if_true]
      refine ⟨hsum, ?_⟩
      dsimp only
      intro h0
      have hnil := hfree h0
      rw [hnil] at hc
      simp at hc
    · simp only [semStep, hc, if_false]
      exact ⟨hsum, hfree⟩

theorem foldl_semStep_inv (cap : Nat) :
    ∀ (events : List SemEvent) (s : SemState),
      SemInv cap s → SemInv cap (events.foldl semStep s) := by
  intro events
  induction events with
  | nil => intro s h; exact h
  | cons e evs ih =>
    intro s h
    exact ih (semStep s e) (semStep_inv cap s e h)

theorem semRun_inv (cap : Nat) (events : List SemEvent) : SemInv cap (semRun cap events) :=
  foldl_semStep_inv cap events (semInit cap) ⟨by simp [semInit], fun _ => rfl⟩

theorem semStep_preserves_absent {s : SemState} {w : Nat} (e : SemEvent)
    (hq : w ∉ s.queue) (hh : w ∉ s.holders) (he : e ≠ SemEvent.acquire w) :
    w ∉ (semStep s e).queue ∧ w ∉ (semStep s e).holders := by
  cases e with
  | acquire id =>
    have hid : id ≠ w := fun h => he (by rw [h])
    by_cases ha : 0 < s.available
    · simp only [semStep, if_pos ha]
      refine ⟨hq, ?_⟩
      intro hmem
      rcases List.mem_append.mp hmem with h1 | h2
      · exact hh h1
      · simp at h2
        exact hid h2.symm
    · simp only [semStep, if_neg ha]
      refine ⟨?_, hh⟩
      intro hmem
      rcases List.mem_append.mp hmem with h1 | h2
      · exact hq h1
      · simp at h2
        exact hid h2.symm
  | release id =>
    by_cases hc : s.holders.contains id
    · cases hqe : s.queue with
      | nil =>
        simp only [semStep, hc, if_true, hqe]
        exact ⟨by simp, fun hmem => hh (List.mem_of_mem_erase hmem)⟩
      | cons v rest =>
        have hvw : w ≠ v := by
          intro h
          subst h
          apply hq
          rw [hqe]
          exact List.mem_cons_self _ _
        simp only [semStep, hc, if_true, hqe]
        constructor
        · intro hmem
          apply hq
          rw [hqe]
          exact List.mem_cons_of_mem _ hmem
        · intro hmem
          rcases List.mem_append.mp hmem with h1 | h2
          · exact hh (List.mem_of_mem_erase h1)
          · simp at h2
            exact hvw h2
    · simp only [semStep, hc, if_false]
      exact ⟨hq, hh⟩
  | timeout id =>
    by_cases hc : s.queue.contains id
    · simp only [semStep, hc, if_true]
      exact ⟨fun hmem => hq (List.mem_of_mem_erase hmem), hh⟩
    · simp only [semStep, hc, if_false]
      exact ⟨hq, hh⟩

theorem foldl_semStep_absent :
    ∀ (events : List SemEvent) (s : SemState) (w : Nat),
      w ∉ s.queue → w ∉ s.holders → (∀ e ∈ events, e ≠ SemEvent.acquire w) →
      w ∉ (events.foldl semStep s).queue ∧ w ∉ (events.foldl semStep s).holders := by
  intro events
  induction events with
  | nil =>
    intro s w hq hh _
    exact ⟨hq, hh⟩
  | cons e evs ih =>
    intro s w hq hh hall
    have hstep := semStep_preserves_absent e hq hh (hall e (List.mem_cons_self _ _))
    exact ih (semStep s e) w hstep.1 hstep.2 (fun e' he' => hall e' (List.mem_cons_of_mem _ he'))

/-! ## Claim C1 -/

/-- C1: for the capacity-1 permit gate: (1) after any event trace at most one
caller holds the permit; (2) `release` by a holder hands the slot to the FRONT
of the wait queue (the longest-waiting caller), dequeuing it and appending it
to the grant log — a queued waiter's work begins only at the previous holder's
release; (3) `acquire` while the permit is taken appends the caller to the BACK
of the queue and grants nothing (no queue-jumping); (4) a timeout of a queued
waiter removes it from the queue and rejects it, leaving holders and the free
slot count untouched (no leaked slot); (5) a caller absent from queue and
holders that never re-acquires is never granted the permit by later events. -/
theorem C1_permit_gate :
    (∀ events : List SemEvent, (semRun 1 events).holders.length ≤ 1) ∧
    (∀ (s : SemState) (id w : Nat) (rest : List Nat),
      s.queue = w :: rest → s.holders.contains id = true →
        semStep s (SemEvent.release id)
          = { s with
              holders := s.holders.erase id ++ [w]
              queue := rest
              granted := s.granted ++ [w] }) ∧
    (∀ (s : SemState) (id : Nat), s.available = 0 →
        semStep s (SemEvent.acquire id) = { s with queue := s.queue ++ [id] }) ∧
    (∀ (s : SemState) (w : Nat), s.queue.contains w = true →
        semStep s (SemEvent.timeout w)
          = { s with queue := s.queue.erase w, rejected := s.rejected ++ [w] }) ∧
    (∀ (events : List SemEvent) (s : SemState) (w : Nat),
      w ∉ s.queue → w ∉ s.holders → (∀ e ∈ events, e ≠ SemEvent.acquire w) →
        w ∉ (events.foldl semStep s).holders) := by
  refine ⟨?_, ?_, ?_, ?_, ?_⟩
  · intro events
    obtain ⟨hsum, _⟩ := semRun_inv 1 events
    omega
  · intro s id w rest hq hc
    simp [semStep, hq, hc]
    intro hmem
    exact absurd (by simpa using hc) hmem
  · intro s id ha
    simp [semStep, ha]
  · intro s w hc
    simp [semStep, hc]
    intro hmem
    exact absurd (by simpa using hc) hmem
  · intro events s w hq hh hall
    exact (foldl_semStep_absent events s w hq hh hall).2

/-- Witness for C1: a concrete contended trace and concrete states for each
hypothesis-bearing conjunct. -/
theorem C1_permit_gate_witness :
    (semRun 1 [SemEvent.acquire 1, SemEvent.acquire 2, SemEvent.release 1]).holders.length ≤ 1 ∧
    semStep ⟨0, [2], [1], [1], []⟩ (SemEvent.release 1) = ⟨0, [], [2], [1, 2], []⟩ ∧
    semStep ⟨0, [5], [7], [7], []⟩ (SemEvent.acquire 9) = ⟨0, [5, 9], [7], [7], []⟩ ∧
    semStep ⟨0, [5, 9], [7], [7], []⟩ (SemEvent.timeout 9) = ⟨0, [5], [7], [7], [9]⟩ ∧
    9 ∉ (([SemEvent.release 7, SemEvent.timeout 5]).foldl semStep
          ⟨0, [5], [7], [7], []⟩).holders := by
  have h := C1_permit_gate
  exact ⟨h.1 _, h.2.1 _ 1 2 [] rfl (by decide), h.2.2.1 _ 9 rfl,
    h.2.2.2.1 _ 9 (by decide), h.2.2.2.2 _ _ 9 (by decide) (by decide) (by decide)⟩

/-! ## Worker lemmas -/

theorem tick_cons (cfg : Config) (envOf : String → CycleEnv) (b : String)
    (rest : List String) (st : WorkerState) (hb : st.busy = false)
    (hk : cfg.nearAiApiKey = true) :
    tick cfg envOf (b :: rest) st
      = tick cfg envOf rest
          { busy := false, lastBatchId := some b,
            lastError := (runCycle cfg (envOf b)).error,
            processed := st.processed ++ [b] } := by
  simp [tick, hb, hk]

theorem tick_drains (cfg : Config) (envOf : String → CycleEnv)
    (hk : cfg.nearAiApiKey = true) :
    ∀ (pending : List String) (st : WorkerState), st.busy = false →
      (tick cfg envOf pending st).2 = [] ∧
      (tick cfg envOf pending st).1.busy = false ∧
      (tick cfg envOf pending st).1.processed = st.processed ++ pending := by
  intro pending
  induction pending with
  | nil =>
    intro st hb
    refine ⟨?_, ?_, ?_⟩ <;> simp [tick, hb, hk]
  | cons b rest ih =>
    intro st hb
    rw [tick_cons cfg envOf b rest st hb hk]
    have hrec := ih ⟨false, some b, (runCycle cfg (envOf b)).error, st.processed ++ [b]⟩ rfl
    refine ⟨hrec.1, hrec.2.1, ?_⟩
    rw [hrec.2.2]
    simp

/-- A throwing first step surfaces as the recorded cycle error. -/
theorem runCycle_error_of_writeLore (cfg : Config) (env : CycleEnv) (e : String)
    (h : env.writeLore = Except.error e) : (runCycle cfg env).error = some e := by
  simp [runCycle, h]

/-! ## Claim C2 -/

/-- C2: for every batch cycle of `tick()`: a throwing step is recorded on the
worker state (`lastError`, here witnessed by a failing generation step); the
batch is consumed and never re-queued (the recursive call receives only the
remaining batches); the worker returns to Idle (`busy = false`); and `tick()`
is immediately re-invoked on the remainder — so a single `runOnce()` (= one
outer `tick`) processes every pending batch with no further external trigger
and ends Idle, regardless of per-batch outcomes. -/
theorem C2_worker_error_recovery_and_drain :
    (∀ (cfg : Config) (env : CycleEnv) (e : String),
      env.writeLore = Except.error e → (runCycle cfg env).error = some e) ∧
    (∀ (cfg : Config) (envOf : String → CycleEnv) (b : String) (rest : List String)
       (st : WorkerState), st.busy = false → cfg.nearAiApiKey = true →
      tick cfg envOf (b :: rest) st
        = tick cfg envOf rest
            { busy := false, lastBatchId := some b,
              lastError := (runCycle cfg (envOf b)).error,
              processed := st.processed ++ [b] }) ∧
    (∀ (cfg : Config) (envOf : String → CycleEnv) (pending : List String)
       (st : WorkerState), cfg.nearAiApiKey = true → st.busy = false →
      (tick cfg envOf pending st).2 = [] ∧
      (tick cfg envOf pending st).1.busy = false ∧
      (tick cfg envOf pending st).1.processed = st.processed ++ pending) :=
  ⟨runCycle_error_of_writeLore,
   tick_cons,
   fun cfg envOf pending st hk hb => tick_drains cfg envOf hk pending st hb⟩

/-- Witness for C2: a failing batch `b1` followed by `b2`, and a 3-batch
drain, at concrete states. -/
theorem C2_worker_error_recovery_and_drain_witness :
    (runCycle ⟨true, false, false, false⟩
        ⟨Except.error "boom", fun _ => Except.ok "t", Except.ok (), Except.ok (), false⟩).error
      = some "boom" ∧
    tick ⟨true, false, false, false⟩
        (fun _ => ⟨Except.error "boom", fun _ => Except.ok "t", Except.ok (), Except.ok (), false⟩)
        ["b1", "b2"] ⟨false, none, none, []⟩
      = tick ⟨true, false, false, false⟩
          (fun _ => ⟨Except.error "boom", fun _ => Except.ok "t", Except.ok (), Except.ok (), false⟩)
          ["b2"]
          { busy := false, lastBatchId := some "b1",
            lastError := (runCycle ⟨true, false, false, false⟩
              ((fun _ => (⟨Except.error "boom", fun _ => Except.ok "t", Except.ok (),
                Except.ok (), false⟩ : CycleEnv)) "b1")).error,
            processed := ([] : List String) ++ ["b1"] } ∧
    ((tick ⟨true, false, false, false⟩
        (fun _ => ⟨Except.ok "lore", fun _ => Except.ok "t", Except.ok (), Except.ok (), false⟩)
        ["b1", "b2", "b3"] ⟨false, none, none, []⟩).2 = [] ∧
     (tick ⟨true, false, false, false⟩
        (fun _ => ⟨Except.ok "lore", fun _ => Except.ok "t", Except.ok (), Except.ok (), false⟩)
        ["b1", "b2", "b3"] ⟨false, none, none, []⟩).1.busy = false ∧
     (tick ⟨true, false, false, false⟩
        (fun _ => ⟨Except.ok "lore", fun _ => Except.ok "t", Except.ok (), Except.ok (), false⟩)
        ["b1", "b2", "b3"] ⟨false, none, none, []⟩).1.processed
       = ([] : List String) ++ ["b1", "b2", "b3"]) := by
  have h := C2_worker_error_recovery_and_drain
  exact ⟨h.1 _ _ "boom" rfl, h.2.1 _ _ "b1" ["b2"] _ rfl rfl, h.2.2 _ _ ["b1", "b2", "b3"] _ rfl rfl⟩

/-! ## X notification loop lemmas -/

theorem xNotifAttempts_ok_valid (gen : Nat → Except String String) :
    ∀ (fuel attempt : Nat) (le : Option String) (t : String),
      xNotifAttempts gen attempt fuel le = Except.ok t →
      isValidXNotificationText t [] = true := by
  intro fuel
  induction fuel with
  | zero =>
    intro attempt le t h
    simp [xNotifAttempts] at h
  | succ f ih =>
    intro attempt le t h
    rw [xNotifAttempts] at h
    cases hg : gen attempt with
    | ok u =>
      rw [hg] at h
      dsimp only at h
      by_cases hv : isValidXNotificationText u [] = true
      · rw [if_pos hv] at h
        cases h
        exact hv
      · rw [if_neg hv] at h
        exact ih (attempt + 1) le t h
    | error e =>
      rw [hg] at h
      dsimp only at h
      exact ih (attempt + 1) (some e) t h

theorem xNotifAttempts_congr (gen gen' : Nat → Except String String) :
    ∀ (fuel attempt : Nat) (le : Option String),
      (∀ a, attempt ≤ a → a < attempt + fuel → gen a = gen' a) →
      xNotifAttempts gen attempt fuel le = xNotifAttempts gen' attempt fuel le := by
  intro fuel
  induction fuel with
  | zero => intro attempt le _; rfl
  | succ f ih =>
    intro attempt le hag
    rw [xNotifAttempts, xNotifAttempts, hag attempt (Nat.le_refl _) (by omega)]
    cases hg : gen' attempt with
    | ok u =>
      dsimp only
      by_cases hv : isValidXNotificationText u [] = true
      · rw [if_pos hv, if_pos hv]
      · rw [if_neg hv, if_neg hv]
        exact ih (attempt + 1) le (fun a h1 h2 => hag a (by omega) (by omega))
    | error e =>
      dsimp only
      exact ih (attempt + 1) (some e) (fun a h1 h2 => hag a (by omega) (by omega))

theorem isValidXNotificationText_spec (t : String)
    (h : isValidXNotificationText t [] = true) :
    t.isEmpty = false ∧ t.length ≤ 260 ∧ hasUrlLike t = false ∧ hasHashtag t = false := by
  unfold isValidXNotificationText at h
  by_cases h1 : t.isEmpty = true
  · rw [if_pos h1] at h
    exact absurd h (by simp)
  · rw [if_neg h1] at h
    by_cases h2 : 260 < t.length
    · rw [if_pos h2] at h
      exact absurd h (by simp)
    · rw [if_neg h2] at h
      by_cases h3 : hasUrlLike t = true
      · rw [if_pos h3] at h
        exact absurd h (by simp)
      · rw [if_neg h3] at h
        by_cases h4 : hasHashtag t = true
        · rw [if_pos h4] at h
          exact absurd h (by simp)
        · exact ⟨by simpa using h1, by omega, by simpa using h3, by simpa using h4⟩

/-! ## Claim C4 (amended) -/

/-- C4 (amended): a text returned by the worker's secondary-text loop passes
the acceptance predicate AS INVOKED THERE — with an empty account-id list —
i.e. it is non-empty, at most 260 characters, and free of URL-like tokens and
hashtags; the `mustIncludeIds` back-reference check is vacuous because the
worker calls `isValidXNotificationText(text)` without the ids.  The loop
consults the generator for attempts 1..4 only. -/
theorem C4_x_acceptance_amended :
    (∀ (gen : Nat → Except String String) (t : String),
      xNotifAttempts gen 1 4 none = Except.ok t →
        t.isEmpty = false ∧ t.length ≤ 260 ∧ hasUrlLike t = false ∧ hasHashtag t = false) ∧
    (∀ (gen gen' : Nat → Except String String),
      (∀ a, 1 ≤ a → a ≤ 4 → gen a = gen' a) →
        xNotifAttempts gen 1 4 none = xNotifAttempts gen' 1 4 none) :=
  ⟨fun gen t h => isValidXNotificationText_spec t (xNotifAttempts_ok_valid gen 4 1 none t h),
   fun gen gen' hag =>
     xNotifAttempts_congr gen gen' 4 1 none (fun a h1 h2 => hag a h1 (by omega))⟩

/-- Witness for C4 (amended): a generator that succeeds immediately. -/
theorem C4_x_acceptance_amended_witness :
    (("whisper night at the grove" : String).isEmpty = false ∧
      ("whisper night at the grove" : String).length ≤ 260 ∧
      hasUrlLike "whisper night at the grove" = false ∧
      hasHashtag "whisper night at the grove" = false) ∧
    xNotifAttempts (fun _ => Except.ok "whisper night at the grove") 1 4 none
      = xNotifAttempts (fun _ => Except.ok "whisper night at the grove") 1 4 none := by
  have h := C4_x_acceptance_amended
  exact ⟨h.1 (fun _ => Except.ok "whisper night at the grove") _ rfl,
    h.2 _ _ (fun a _ _ => rfl)⟩

/-- C4 counterexample: the worker's loop accepts a text that omits a required
account back-reference (`alice.near`), because the predicate is invoked with
an empty id list — refuting the claim that acceptance requires every
`mustIncludeIds` entry verbatim. -/
theorem C4_counterexample :
    xNotifAttempts (fun _ => Except.ok "whisper night at the grove") 1 4 none
      = Except.ok "whisper night at the grove" ∧
    containsAllAccountIds "whisper night at the grove" ["alice.near"] = false := by
  exact ⟨rfl, by decide⟩

/-! ## Secondary-step lemmas -/

theorem secondaryStep_window (cfg : Config) (env : CycleEnv)
    (hx : cfg.publishLoreToX = true) (hm : cfg.marketingEnabled = true)
    (hw : env.inWindow = true) :
    secondaryStep cfg env = Except.ok (none, some "marketing_window") := by
  simp [secondaryStep, hx, hm, hw]

theorem secondaryStep_outside (cfg : Config) (env : CycleEnv) (t : String)
    (hx : cfg.publishLoreToX = true) (hm : cfg.marketingEnabled = true)
    (hw : env.inWindow = false)
    (hatt : xNotifAttempts env.xGen 1 4 none = Except.ok t) :
    secondaryStep cfg env = Except.ok (some t, none) := by
  simp [secondaryStep, hx, hm, hw, hatt]

/-- Whatever happens downstream (NEAR Social / X publication outcomes), the
cycle's recorded skip reason and secondary text are the secondary-step
decision's. -/
theorem runCycle_skip_xText (cfg : Config) (env : CycleEnv) (lore : String)
    (xo : Option String) (skip : Option String)
    (hl : env.writeLore = Except.ok lore)
    (hs : secondaryStep cfg env = Except.ok (xo, skip)) :
    (runCycle cfg env).skipReason = skip ∧ (runCycle cfg env).xText = xo := by
  unfold runCycle
  rw [hl, hs]
  cases hn : cfg.publishLoreToNearSocial <;>
    cases hpn : env.publishNear <;>
      cases hx : cfg.publishLoreToX <;>
        cases xo <;>
          cases hxp : env.publishX <;>
            simp_all

/-- With no secondary text, the short-form channel is never touched. -/
theorem runCycle_no_xpub (cfg : Config) (env : CycleEnv) (lore : String)
    (skip : Option String) (hl : env.writeLore = Except.ok lore)
    (hs : secondaryStep cfg env = Except.ok (none, skip)) :
    (runCycle cfg env).xPublished = false := by
  unfold runCycle
  rw [hl, hs]
  cases hn : cfg.publishLoreToNearSocial <;>
    cases hpn : env.publishNear <;>
      cases hx : cfg.publishLoreToX <;>
        simp_all

/-! ## Claim C5 -/

/-- C5: if short-form publication is enabled and the marketing scheduler is
enabled with the current local minute inside its window, the worker's cycle
skips the secondary step entirely — the log carries reason
`marketing_window`, no secondary text is produced and nothing is published to
the short-form channel for that batch (which `tick` has already consumed, so
there is no later retry); outside the window the secondary step proceeds into
the generation loop. The window is the circular local-minute range from
`base − ⌊window/2⌋` to `base + ⌊window/2⌋`: for sane configuration
(`base < 1440` from `parseHHMM`, window below a full day) membership is
exactly circular distance to `base` at most `⌊window/2⌋`. -/
theorem C5_marketing_window_skip :
    (∀ (cfg : Config) (env : CycleEnv) (lore : String),
      cfg.publishLoreToX = true → cfg.marketingEnabled = true → env.inWindow = true →
      env.writeLore = Except.ok lore →
        (runCycle cfg env).skipReason = some "marketing_window" ∧
        (runCycle cfg env).xText = none ∧
        (runCycle cfg env).xPublished = false) ∧
    (∀ (cfg : Config) (env : CycleEnv) (lore t : String),
      cfg.publishLoreToX = true → cfg.marketingEnabled = true → env.inWindow = false →
      env.writeLore = Except.ok lore →
      xNotifAttempts env.xGen 1 4 none = Except.ok t →
        (runCycle cfg env).skipReason = none ∧ (runCycle cfg env).xText = some t) ∧
    (∀ nowMin base wm : Nat, nowMin < 1440 → base < 1440 → wm / 2 < 720 →
      (isInMarketingWindow nowMin base wm = true ↔
        circularDistance nowMin base ≤ wm / 2)) := by
  refine ⟨?_, ?_, ?_⟩
  · intro cfg env lore hx hm hw hl
    have hs := secondaryStep_window cfg env hx hm hw
    have hfields := runCycle_skip_xText cfg env lore none (some "marketing_window") hl hs
    exact ⟨hfields.1, hfields.2, runCycle_no_xpub cfg env lore _ hl hs⟩
  · intro cfg env lore t hx hm hw hl hatt
    exact runCycle_skip_xText cfg env lore (some t) none hl
      (secondaryStep_outside cfg env t hx hm hw hatt)
  · intro nowMin base wm h1 h2 h3
    unfold isInMarketingWindow marketingWindowStart marketingWindowEnd isInCircularRange
      circularDistance
    split <;> simp <;> omega

/-- Witness for C5: a concrete cycle inside the window, one outside, and the
default one-hour window around noon. -/
theorem C5_marketing_window_skip_witness :
    ((runCycle ⟨true, true, false, true⟩
        ⟨Except.ok "lore", fun _ => Except.ok "whisper night", Except.ok (), Except.ok (), true⟩).skipReason
        = some "marketing_window" ∧
      (runCycle ⟨true, true, false, true⟩
        ⟨Except.ok "lore", fun _ => Except.ok "whisper night", Except.ok (), Except.ok (), true⟩).xText
        = none ∧
      (runCycle ⟨true, true, false, true⟩
        ⟨Except.ok "lore", fun _ => Except.ok "whisper night", Except.ok (), Except.ok (), true⟩).xPublished
        = false) ∧
    ((runCycle ⟨true, true, false, true⟩
        ⟨Except.ok "lore", fun _ => Except.ok "whisper night", Except.ok (), Except.ok (), false⟩).skipReason
        = none ∧
      (runCycle ⟨true, true, false, true⟩
        ⟨Except.ok "lore", fun _ => Except.ok "whisper night", Except.ok (), Except.ok (), false⟩).xText
        = some "whisper night") ∧
    (isInMarketingWindow 721 720 60 = true ↔ circularDistance 721 720 ≤ 60 / 2) := by
  have h := C5_marketing_window_skip
  exact ⟨h.1 _ _ "lore" rfl rfl rfl rfl, h.2.1 _ _ "lore" "whisper night" rfl rfl rfl rfl rfl,
    h.2.2 721 720 60 (by decide) (by decide) (by decide)⟩

/-! ## Claim C6 (amended) -/

/-- C6 counterexample: a batch cycle that succeeds end to end (`error = none`)
with long-form (NEAR Social) publication disabled does NOT append the
artifact to the continuity store — the push sits inside
`if (config.publishLoreToNearSocial)`, so the claim's "every successful batch
cycle" fails as stated. -/
theorem C6_counterexample :
    (runCycle ⟨true, false, false, false⟩
        ⟨Except.ok "lore", fun _ => Except.ok "t", Except.ok (), Except.ok (), false⟩).error
      = none ∧
    (runCycle ⟨true, false, false, false⟩
        ⟨Except.ok "lore", fun _ => Except.ok "t", Except.ok (), Except.ok (), false⟩).storeAppended
      = false :=
  ⟨rfl, rfl⟩

/-- C6 (amended): at the end of every successful batch cycle IN WHICH NEAR
Social long-form publication is enabled, the primary artifact is appended to
the continuity store before the worker returns to Idle; the store is the
capacity-10 ring buffer, whose push keeps at most 10 entries and, when full,
evicts exactly the oldest entry. -/
theorem C6_continuity_append :
    (∀ (cfg : Config) (env : CycleEnv), cfg.publishLoreToNearSocial = true →
      (runCycle cfg env).error = none → (runCycle cfg env).storeAppended = true) ∧
    (∀ (store : RingBuffer Nat) (l : List Nat) (x : Nat),
      store.Inv l → store.capacity = 10 →
        (store.push x).1.size ≤ 10 ∧
        (l.length = 10 → (store.push x).2 = l.head?)) := by
  constructor
  · intro cfg env hn herr
    cases hl : env.writeLore with
    | error e => simp [runCycle, hl] at herr
    | ok lore =>
      cases hs : secondaryStep cfg env with
      | error e => simp [runCycle, hl, hs] at herr
      | ok pr =>
        obtain ⟨xo, skip⟩ := pr
        cases hpn : env.publishNear with
        | error e => simp [runCycle, hl, hs, hn, hpn] at herr
        | ok u =>
          cases hx : cfg.publishLoreToX <;> cases xo <;> cases hxp : env.publishX <;>
            simp_all [runCycle]
  · intro store l x hInv hcap
    have hp := push_refines store l x hInv
    obtain ⟨⟨_, _, _, hsz, hle, _⟩, hdrop⟩ := hp
    constructor
    · calc (store.push x).1.size
          = (ListModel.push store.capacity l x).1.length := hsz
        _ ≤ (store.push x).1.capacity := hle
        _ = 10 := by rw [push_capacity, hcap]
    · intro hfull
      rw [hdrop]
      unfold ListModel.push
      rw [if_pos (by omega : l.length = store.capacity)]

/-- Witness for C6 (amended): a succeeding cycle with NEAR Social enabled, and
a concrete full capacity-10 store. -/
theorem C6_continuity_append_witness :
    (runCycle ⟨true, false, true, false⟩
        ⟨Except.ok "lore", fun _ => Except.ok "t", Except.ok (), Except.ok (), false⟩).storeAppended
      = true ∧
    (RingBuffer.push
        ⟨10, [some 1, some 2, some 3, some 4, some 5, some 6, some 7, some 8, some 9, some 10],
         0, 10⟩ (11 : Nat)).1.size ≤ 10 ∧
    (RingBuffer.push
        ⟨10, [some 1, some 2, some 3, some 4, some 5, some 6, some 7, some 8, some 9, some 10],
         0, 10⟩ (11 : Nat)).2
      = ([1, 2, 3, 4, 5, 6, 7, 8, 9, 10] : List Nat).head? := by
  have h := C6_continuity_append
  have h2 := h.2 ⟨10, [some 1, some 2, some 3, some 4, some 5, some 6, some 7, some 8,
    some 9, some 10], 0, 10⟩ [1, 2, 3, 4, 5, 6, 7, 8, 9, 10] 11 (by decide) rfl
  exact ⟨h.1 _ _ rfl rfl, h2.1, h2.2 rfl⟩

/-! ## Claim C3 (code bug evidence)

`isTooSimilarToRecent` (and `buildDynamicStopwords`) are defined in
`marketingPoster.ts` but never invoked: `generateMarketingTextWithRetries`
screens drafts with `validateMarketingText` only, which never consults the
recent accepted posts.  The following evaluation exhibits a candidate sharing
its first two ≥4-letter words with a recent accepted post: the anti-repetition
validator rejects it, yet the actual pipeline accepts it on attempt 1 and
hands it to the publisher. -/

/-- C3: evidence that the anti-repetition check is dead code — the candidate
shares its first two long words with the recent post and is rejected by
`isTooSimilarToRecent`, yet `validateMarketingText` (the only screen in the
retry loop) accepts it and the loop returns it for publication. -/
theorem C3_anti_repetition_not_wired :
    (isTooSimilarToRecent "✦ Dark forest omens tonight, the oracle hums."
        ["✦ Dark forest hums low, embers drift."] []).ok = false ∧
    firstLongWords "✦ Dark forest omens tonight, the oracle hums." 2
      = firstLongWords "✦ Dark forest hums low, embers drift." 2 ∧
    (validateMarketingText "✦ Dark forest omens tonight, the oracle hums.").ok = true ∧
    marketingAttempts (fun _ => "✦ Dark forest omens tonight, the oracle hums.") 1 2 ""
      = ("✦ Dark forest omens tonight, the oracle hums.", true) :=
  ⟨rfl, rfl, rfl, rfl⟩

/-! ## Claim C10 -/

/-- C10: the marketing poster's hard cap — every text handed to the short-form
publisher by `generateAndPost` is at most 25000 characters: `enforceHardCap`
trims and slices the draft to the cap even when the generator returns a longer
text. -/
theorem C10_hard_cap (draft : String) :
    (enforceHardCap draft).length ≤ 25000 ∧
    (∀ t : String, generateAndPostText draft = some t → t.length ≤ 25000) := by
  have hcap : (enforceHardCap draft).length ≤ 25000 := by
    unfold enforceHardCap
    by_cases hle : (trimStr draft).length ≤ 25000
    · rw [if_pos hle]
      exact hle
    · rw [if_neg hle]
      show ((trimStr draft).data.take 25000).length ≤ 25000
      rw [List.length_take]
      exact Nat.min_le_left _ _
  refine ⟨hcap, ?_⟩
  intro t ht
  unfold generateAndPostText at ht
  by_cases he : (trimStr (enforceHardCap draft)).isEmpty = true
  · rw [if_pos he] at ht
    cases ht
  · rw [if_neg he] at ht
    cases ht
    exact hcap

/-- Witness for C10 at a concrete draft that gets posted. -/
theorem C10_hard_cap_witness :
    (enforceHardCap "hello").length ≤ 25000 ∧ ("hello" : String).length ≤ 25000 :=
  ⟨(C10_hard_cap "hello").1, (C10_hard_cap "hello").2 "hello" rfl⟩

set_option maxRecDepth 8000 in
/-- C9: with `batchSize = 20` (rounds capacity 100, pending capacity 10),
ingesting rounds `1..45` in delivery order forms exactly the two batches
`[1..20]` and `[21..40]` — 20 consecutive records each, in ingestion order —
and leaves exactly the 5 records `41..45` in the unbatched queue. -/
theorem C9_batcher_45_records :
    (ingestAll 20 (initBatcher 100 20 10) (List.range' 1 45)).pending.toArray
        = [List.range' 1 20, List.range' 21 20] ∧
    (ingestAll 20 (initBatcher 100 20 10) (List.range' 1 45)).unbatched
        = List.range' 41 5 ∧
    (ingestAll 20 (initBatcher 100 20 10) (List.range' 1 45)).pending.size = 2 := by
  decide

end Whisper
